import Mathlib

/-!
Verification development for the hyakunin-isshu karuta game core
(`public/js/gameEngine.js`, `public/js/scoreManager.js`, `src/poemValidator.js`).

JavaScript numbers that are only ever non-negative integers are embedded as
`Nat`; numbers that may go negative or fractional are embedded as `Int` / `ℚ`.
Mutable class instances become immutable state values with explicit state
passing; `Math.random`-driven index choices become an explicit choice
function `rand : Nat → Nat`.
-/

/-- A poem record: `{ id, author, upperVerse, lowerVerse }`. -/
structure Poem where
  id : Int
  author : String
  upperVerse : String
  lowerVerse : String
deriving DecidableEq, Repr

/-- One in-place swap step `arr[i] ↔ arr[j]` of the Fisher-Yates loop body
(gameEngine.js lines 22-25), as a pure list operation.  Out-of-range indices
leave the list unchanged (they cannot occur in the source loop). -/
def swapAt (l : List Poem) (i j : Nat) : List Poem :=
  match l[i]?, l[j]? with
  | some x, some y => (l.set i y).set j x
  | some _, none => l
  | none, _ => l

/-- Auxiliary loop of `fisherYatesShuffle`: performs the swaps for
`i = k, k-1, ..., 1` where the random choice at step `i` is `rand i`
(the source draws `j = Math.floor(Math.random() * (i + 1))`). -/
def fyLoop (rand : Nat → Nat) : Nat → List Poem → List Poem
  | 0, arr => arr
  | Nat.succ k, arr => fyLoop rand k (swapAt arr (k + 1) (rand (k + 1)))

/-- `fisherYatesShuffle(array)` (gameEngine.js lines 19-28): copies the array
and swaps `arr[i]` with `arr[j]`, `j = Math.floor(Math.random() * (i+1))`,
for `i` from `length - 1` down to `1`. -/
def fisherYatesShuffle (rand : Nat → Nat) (array : List Poem) : List Poem :=
  fyLoop rand (array.length - 1) array

/-- The mutable fields of a `GameEngine` instance (gameEngine.js lines 34-46). -/
structure GameEngine where
  allPoems : List Poem
  remainingCards : List Poem
  readingOrder : List Poem
  currentRound : Nat
  totalRounds : Nat
  score : Nat
  incorrectCount : Nat
  gameOver : Bool
deriving DecidableEq, Repr

/-- `new GameEngine(poems)` (lines 34-46): throws unless `poems` is a
non-empty array; stores a copy and zero-initialises every field.
The throw is embedded as `none`. -/
def GameEngine.create (poems : List Poem) : Option GameEngine :=
  if poems.isEmpty then none
  else some { allPoems := poems, remainingCards := [], readingOrder := [],
              currentRound := 0, totalRounds := 0, score := 0,
              incorrectCount := 0, gameOver := false }

/-- `initGame()` (lines 54-68): shuffles the reading order and the remaining
pool independently, sets `totalRounds` to the reading order's length and
resets round, score, incorrect count and the game-over flag.
(The source then returns `getGameState()`; here the updated engine is
returned and the state is read off with `getGameState`.) -/
def GameEngine.initGame (g : GameEngine) (rand1 rand2 : Nat → Nat) : GameEngine :=
  let readingOrder := fisherYatesShuffle rand1 g.allPoems
  let remainingCards := fisherYatesShuffle rand2 g.allPoems
  { g with readingOrder := readingOrder, remainingCards := remainingCards,
           totalRounds := readingOrder.length, currentRound := 0,
           score := 0, incorrectCount := 0, gameOver := false }

/-- `getCurrentReadingCard()` (lines 75-80): `null` when the game is over or
the round index is out of range, otherwise `readingOrder[currentRound]`. -/
def GameEngine.getCurrentReadingCard (g : GameEngine) : Option Poem :=
  if g.gameOver ∨ g.currentRound ≥ g.totalRounds then none
  else g.readingOrder[g.currentRound]?

/-- Result value `{ correct, correctCard }` of `selectCard`. -/
structure SelectResult where
  correct : Bool
  correctCard : Option Poem
deriving DecidableEq, Repr

/-- `selectCard(cardId)` (lines 89-116): no-op result when the game is over or
there is no current poem; on a matching id, score is incremented and every
card with that id is filtered out of the remaining pool; otherwise the
incorrect count is incremented. -/
def GameEngine.selectCard (g : GameEngine) (cardId : Int) : SelectResult × GameEngine :=
  if g.gameOver then ({ correct := false, correctCard := none }, g)
  else
    match g.getCurrentReadingCard with
    | none => ({ correct := false, correctCard := none }, g)
    | some currentPoem =>
      if cardId = currentPoem.id then
        ({ correct := true, correctCard := some currentPoem },
         { g with score := g.score + 1,
                  remainingCards := g.remainingCards.filter fun card => card.id ≠ cardId })
      else
        ({ correct := false, correctCard := some currentPoem },
         { g with incorrectCount := g.incorrectCount + 1 })

/-- `nextRound()` (lines 123-137): `false` and no change when the game is
over; otherwise increments the round index, and if it reached `totalRounds`
or the pool is empty, marks the game over and returns `false`; else `true`. -/
def GameEngine.nextRound (g : GameEngine) : Bool × GameEngine :=
  if g.gameOver then (false, g)
  else
    let g' := { g with currentRound := g.currentRound + 1 }
    if g'.currentRound ≥ g'.totalRounds ∨ g'.remainingCards.length = 0 then
      (false, { g' with gameOver := true })
    else
      (true, g')

/-- `isGameOver()` (lines 143-145). -/
def GameEngine.isGameOver (g : GameEngine) : Bool :=
  g.gameOver

/-- The `GameState` object returned by `getGameState()` (lines 151-161). -/
structure GameState where
  remainingCards : List Poem
  currentPoem : Option Poem
  currentRound : Nat
  totalRounds : Nat
  score : Nat
  incorrectCount : Nat
  isGameOver : Bool
deriving DecidableEq, Repr

/-- `getGameState()` (lines 151-161): snapshot of the fields; note
`currentRound: this._currentRound + 1` (1-based for display). -/
def GameEngine.getGameState (g : GameEngine) : GameState :=
  { remainingCards := g.remainingCards,
    currentPoem := g.getCurrentReadingCard,
    currentRound := g.currentRound + 1,
    totalRounds := g.totalRounds,
    score := g.score,
    incorrectCount := g.incorrectCount,
    isGameOver := g.gameOver }

/-- One externally triggered mutation of the engine: a `selectCard(cardId)`
call or a `nextRound()` call. -/
inductive GameAction where
  | select (cardId : Int)
  | next
deriving DecidableEq, Repr

/-- Apply one action to the engine, keeping the post-state. -/
def applyAction (g : GameEngine) : GameAction → GameEngine
  | .select cardId => (g.selectCard cardId).2
  | .next => (g.nextRound).2

/-- Run a sequence of `selectCard` / `nextRound` calls. -/
def runActions (g : GameEngine) (acts : List GameAction) : GameEngine :=
  acts.foldl applyAction g

/-!  ## ScoreManager (scoreManager.js)

Counters are JavaScript numbers that the class only ever sets to
non-negative integers; `_totalCards` is validated non-negative.  They are
embedded as `Int` so that `Math.max(0, totalCards - correct)` keeps its
clamping content, with reachability supplying non-negativity. -/

/-- The mutable fields of a `ScoreManager` instance (scoreManager.js 16-23). -/
structure ScoreManager where
  totalCards : Int
  correct : Int
  incorrect : Int
deriving DecidableEq, Repr

/-- `new ScoreManager(totalCards)` (lines 16-23): throws (here `none`) unless
`totalCards` is a non-negative integer; zeroes both counters. -/
def ScoreManager.create (totalCards : Int) : Option ScoreManager :=
  if totalCards < 0 then none
  else some { totalCards := totalCards, correct := 0, incorrect := 0 }

/-- `addCorrect()` (lines 30-35): increments the correct counter
unconditionally (the guard in the source has an empty body). -/
def ScoreManager.addCorrect (s : ScoreManager) : ScoreManager :=
  { s with correct := s.correct + 1 }

/-- `addIncorrect()` (lines 42-44). -/
def ScoreManager.addIncorrect (s : ScoreManager) : ScoreManager :=
  { s with incorrect := s.incorrect + 1 }

/-- `getAccuracy()` (lines 67-73): `Math.round((correct/total)*10000)/100`,
or `0` when no attempts were made.  JavaScript number arithmetic is embedded
as exact rational arithmetic; `Math.round` (half toward +∞) is Mathlib's
`round` on `ℚ`. -/
def ScoreManager.getAccuracy (s : ScoreManager) : ℚ :=
  let totalAttempts := s.correct + s.incorrect
  if totalAttempts = 0 then 0
  else ((round (((s.correct : ℚ) / (totalAttempts : ℚ)) * 10000) : ℤ) : ℚ) / 100

/-- The object returned by `getScore()` (lines 51-58). -/
structure ScoreData where
  correct : Int
  incorrect : Int
  remaining : Int
  accuracy : ℚ
deriving DecidableEq, Repr

/-- `getScore()` (lines 51-58): counters, `remaining` clamped at `0`, and the
accuracy. -/
def ScoreManager.getScore (s : ScoreManager) : ScoreData :=
  { correct := s.correct,
    incorrect := s.incorrect,
    remaining := max 0 (s.totalCards - s.correct),
    accuracy := s.getAccuracy }

/-- `reset(totalCards?)` (lines 80-89): with an argument, throws (no state
change, embedded as the unchanged state) if it is negative, else replaces the
stored total; zeroes both counters. -/
def ScoreManager.reset (s : ScoreManager) (totalCards : Option Int) : ScoreManager :=
  match totalCards with
  | some t => if t < 0 then s else { totalCards := t, correct := 0, incorrect := 0 }
  | none => { s with correct := 0, incorrect := 0 }

/-- One mutating call on a `ScoreManager`. -/
inductive ScoreAction where
  | addCorrect
  | addIncorrect
  | reset (totalCards : Option Int)
deriving DecidableEq, Repr

/-- Apply one `ScoreAction`. -/
def applyScoreAction (s : ScoreManager) : ScoreAction → ScoreManager
  | .addCorrect => s.addCorrect
  | .addIncorrect => s.addIncorrect
  | .reset t => s.reset t

/-- Run a sequence of `ScoreManager` calls. -/
def runScoreActions (s : ScoreManager) (acts : List ScoreAction) : ScoreManager :=
  acts.foldl applyScoreAction s

/-!  ## Poem validation (src/poemValidator.js)

The validators take arbitrary parsed-JSON-like JavaScript values, so the
input is embedded as a small dynamic value type.  JavaScript has one number
type; it is embedded as `ℚ`, with `Number.isInteger` as "denominator 1". -/

/-- A JavaScript value as far as the validators can observe it. -/
inductive JsVal where
  | vnull
  | vundefined
  | vbool (b : Bool)
  | vnum (q : ℚ)
  | vstr (s : String)
  | varr (elems : List JsVal)
  | vobj (fields : List (String × JsVal))
deriving Repr

/-- Property access `v[key]` for the validators' own keys: field lookup on a
plain object, `undefined` on anything else (the validators only access
`id` / `author` / `upperVerse` / `lowerVerse`, never array indices). -/
def jsGet (v : JsVal) (key : String) : JsVal :=
  match v with
  | .vobj fields =>
    match fields.find? (fun f => f.1 = key) with
    | some f => f.2
    | none => .vundefined
  | _ => .vundefined

/-- Optional chaining `v?.[key]`: `undefined` when `v` is `null`/`undefined`,
plain access otherwise. -/
def jsOptGet (v : JsVal) (key : String) : JsVal :=
  match v with
  | .vnull => .vundefined
  | .vundefined => .vundefined
  | _ => jsGet v key

/-- The `{ valid, errors }` result shape of both validators. -/
structure ValidationResult where
  valid : Bool
  errors : List String
deriving DecidableEq, Repr

/-- The id field error list of `validatePoem` (poemValidator.js 24-29):
`Number.isInteger` then range `[1, 100]`. -/
def idErrors (v : JsVal) : List String :=
  match v with
  | .vnum q =>
    if q.den = 1 then
      if q.num < 1 ∨ q.num > 100 then ["id must be between 1 and 100"] else []
    else ["id must be an integer"]
  | _ => ["id must be an integer"]

/-- Whitespace trimming on the character list (the `String.trim` /
JavaScript `trim()` semantics, stated over `List Char` so that the kernel
can evaluate it). -/
def trimChars (cs : List Char) : List Char :=
  ((cs.dropWhile Char.isWhitespace).reverse.dropWhile Char.isWhitespace).reverse

/-- JavaScript's `s.trim()`. -/
def jsStrTrim (s : String) : String :=
  String.mk (trimChars s.data)

/-- The error list for one required string field of `validatePoem`
(poemValidator.js 31-50): must be a string, non-empty after trimming. -/
def strFieldErrors (name : String) (v : JsVal) : List String :=
  match v with
  | .vstr s =>
    if (jsStrTrim s).length = 0 then [name ++ " must be a non-empty string"] else []
  | _ => [name ++ " must be a string"]

/-- `validatePoem(poem)` (poemValidator.js 11-53): early-returns on
non-objects (`typeof` checks) and arrays, then accumulates all field errors;
`valid` is "no errors". -/
def validatePoem (poem : JsVal) : ValidationResult :=
  match poem with
  | .vnull => { valid := false, errors := ["Poem must be a non-null object"] }
  | .vundefined => { valid := false, errors := ["Poem must be a non-null object"] }
  | .vbool _ => { valid := false, errors := ["Poem must be a non-null object"] }
  | .vnum _ => { valid := false, errors := ["Poem must be a non-null object"] }
  | .vstr _ => { valid := false, errors := ["Poem must be a non-null object"] }
  | .varr _ => { valid := false, errors := ["Poem must be a plain object, not an array"] }
  | .vobj fields =>
    let v := JsVal.vobj fields
    let errors :=
      idErrors (jsGet v "id") ++
      strFieldErrors "author" (jsGet v "author") ++
      strFieldErrors "upperVerse" (jsGet v "upperVerse") ++
      strFieldErrors "lowerVerse" (jsGet v "lowerVerse")
    { valid := errors.isEmpty, errors := errors }

/-- `Number.isInteger(poem?.id)` together with the integer value of
`poem.id` (poemValidator.js 87): `some n` when the id field is an integer
number `n`, `none` otherwise. -/
def elemIdOf (poem : JsVal) : Option Int :=
  match jsOptGet poem "id" with
  | .vnum q => if q.den = 1 then some q.num else none
  | _ => none

/-- The per-element error prefix of `validatePoemCollection`
(poemValidator.js 82): `Poem at index ${index}: ${err}`. -/
def indexedError (i : Nat) (e : String) : String :=
  "Poem at index " ++ toString i ++ ": " ++ e

/-- The length error of `validatePoemCollection` (poemValidator.js 71). -/
def countError (n : Nat) : String :=
  "Poem collection must contain exactly 100 poems, but got " ++ toString n

/-- The duplicate-ids error of `validatePoemCollection` (poemValidator.js 97):
`Duplicate poem IDs found: ${duplicateIds.join(', ')}`. -/
def dupError (dups : List Int) : String :=
  "Duplicate poem IDs found: " ++ String.intercalate ", " (dups.map toString)

/-- The `forEach` loop of `validatePoemCollection` (poemValidator.js 78-94):
threads the error list, the set of seen ids (as an insertion-ordered list)
and the duplicate list through the elements; `idx` is the element index. -/
def scanPoems (poems : List JsVal) (idx : Nat) (errs : List String)
    (seen dups : List Int) : List String × List Int × List Int :=
  match poems with
  | [] => (errs, seen, dups)
  | p :: rest =>
    let r := validatePoem p
    let errs2 := if r.valid then errs else errs ++ r.errors.map (indexedError idx)
    match elemIdOf p with
    | some n =>
      if seen.contains n then scanPoems rest (idx + 1) errs2 seen (dups ++ [n])
      else scanPoems rest (idx + 1) errs2 (seen ++ [n]) dups
    | none => scanPoems rest (idx + 1) errs2 seen dups

/-- `validatePoemCollection(poems)` (poemValidator.js 61-101): early return
on non-arrays; length check, per-element validation with indexed error
messages, duplicate-id detection; `valid` is "no errors". -/
def validatePoemCollection (v : JsVal) : ValidationResult :=
  match v with
  | .varr poems =>
    let lenErrs := if poems.length = 100 then [] else [countError poems.length]
    let s := scanPoems poems 0 lenErrs [] []
    let errs := if s.2.2.isEmpty then s.1 else s.1 ++ [dupError s.2.2]
    { valid := errs.isEmpty, errors := errs }
  | _ => { valid := false, errors := ["Poem collection must be an array"] }

/-- The indexed per-element error messages that the `forEach` loop of
`validatePoemCollection` appends, starting at element index `idx`. -/
def elemErrors (idx : Nat) : List JsVal → List String
  | [] => []
  | p :: rest =>
    (if (validatePoem p).valid then []
     else (validatePoem p).errors.map (indexedError idx)) ++ elemErrors (idx + 1) rest

/-- The `duplicateIds` list that `validatePoemCollection` accumulates over a
poem array (same scan as in `validatePoemCollection`). -/
def collDuplicateIds (poems : List JsVal) : List Int :=
  (scanPoems poems 0 (if poems.length = 100 then [] else [countError poems.length]) [] []).2.2

/-!  ## Invariants and trace measures -/

/-- Invariant of every engine state reachable from `initGame` on the poem
list `poems`: `totalRounds` is the reading order's length, the reading order
is a permutation of `poems`, and the round index stays below `totalRounds`
until the game is over (and never above it). -/
def EngineInv (poems : List Poem) (g : GameEngine) : Prop :=
  g.totalRounds = g.readingOrder.length ∧
  g.readingOrder.Perm poems ∧
  g.currentRound ≤ g.totalRounds ∧
  (g.gameOver = false → g.currentRound < g.totalRounds)

/-- The remaining pool never has two cards with the same id, provided the
original poem list had pairwise-distinct ids. -/
def PoolIdsNodup (g : GameEngine) : Prop :=
  (g.remainingCards.map Poem.id).Nodup

/-- Whether one action counts as a judged `selectCard` call in state `g`:
1 for a `selectCard` call while the game is not over, 0 otherwise. -/
def judgedContrib (g : GameEngine) : GameAction → Nat
  | .select _ => if g.gameOver then 0 else 1
  | .next => 0

/-- The number of `selectCard` calls in an action trace that are issued
while the game is not yet over. -/
def countJudged (g : GameEngine) : List GameAction → Nat
  | [] => 0
  | a :: rest => judgedContrib g a + countJudged (applyAction g a) rest

/-- Non-negativity of every `ScoreManager` counter, which holds in every
reachable `ScoreManager` state. -/
def ScoreInv (s : ScoreManager) : Prop :=
  0 ≤ s.totalCards ∧ 0 ≤ s.correct ∧ 0 ≤ s.incorrect

/-- Modelled from the spec: "round(x, 2 decimal places)", used to compare the
implementation's accuracy against the specified one. -/
def specRoundTo2 (q : ℚ) : ℚ :=
  ((round (q * 100) : ℤ) : ℚ) / 100

/-!  ## Concrete states used by witnesses and counterexamples -/

def poemA : Poem :=
  { id := 1, author := "天智天皇", upperVerse := "秋の田の", lowerVerse := "わが衣手は" }

def poemB : Poem :=
  { id := 2, author := "持統天皇", upperVerse := "春すぎて", lowerVerse := "衣ほすてふ" }

/-- A fixed choice function for `Math.random`-driven indices. -/
def constRand : Nat → Nat := fun _ => 0

def defaultEngine : GameEngine :=
  { allPoems := [], remainingCards := [], readingOrder := [], currentRound := 0,
    totalRounds := 0, score := 0, incorrectCount := 0, gameOver := false }

/-- One-poem engine, as returned by the constructor. -/
def engineOneRaw : GameEngine := (GameEngine.create [poemA]).getD defaultEngine

/-- Two-poem engine, as returned by the constructor. -/
def engineTwoRaw : GameEngine := (GameEngine.create [poemA, poemB]).getD defaultEngine

/-- One-poem game right after `initGame`. -/
def engineOne : GameEngine := engineOneRaw.initGame constRand constRand

/-- Two-poem game right after `initGame`. -/
def engineTwo : GameEngine := engineTwoRaw.initGame constRand constRand

/-- One-poem game after its single `nextRound`: the game is over. -/
def engineOneDone : GameEngine := runActions engineOne [GameAction.next]

/-- A fresh ten-card score manager. -/
def scoreTen : ScoreManager := (ScoreManager.create 10).getD { totalCards := 0, correct := 0, incorrect := 0 }

/-- A structurally valid poem object with a given id, as a JavaScript value. -/
def jsPoem (n : Int) : JsVal :=
  .vobj [("id", .vnum n), ("author", .vstr "someone"),
         ("upperVerse", .vstr "upper"), ("lowerVerse", .vstr "lower")]

/-- A 100-element collection with pairwise-distinct ids 1..100. -/
def jsGoodColl : JsVal :=
  .varr ((List.range 100).map fun i => jsPoem (Int.ofNat i + 1))

/-- A 100-element collection whose last element duplicates id 1. -/
def jsDupColl : JsVal :=
  .varr ((List.range 100).map fun i => jsPoem (if i = 99 then 1 else Int.ofNat i + 1))

/-!  ## Permutation lemmas for the Fisher-Yates shuffle -/

/-- Moving the `m`-th element to the front while writing `a` into its slot is
a permutation of putting `a` in front. -/
theorem cons_get_set_perm {α : Type} (t : List α) (m : Nat) (a : α)
    (h : m < t.length) :
    (t.get ⟨m, h⟩ :: t.set m a).Perm (a :: t) := by
  induction t generalizing m with
  | nil => simp at h
  | cons b s ih =>
    cases m with
    | zero => simpa using List.Perm.swap a b s
    | succ k =>
      have hk : k < s.length := by simpa using h
      have step := ih k hk
      have e1 : (b :: s).get ⟨k + 1, h⟩ :: (b :: s).set (k + 1) a
          = s.get ⟨k, hk⟩ :: b :: s.set k a := by simp
      have p1 : (s.get ⟨k, hk⟩ :: b :: s.set k a).Perm
          (b :: s.get ⟨k, hk⟩ :: s.set k a) := List.Perm.swap b (s.get ⟨k, hk⟩) _
      have p2 : (b :: s.get ⟨k, hk⟩ :: s.set k a).Perm (b :: a :: s) := step.cons b
      have p3 : (b :: a :: s).Perm (a :: b :: s) := List.Perm.swap a b s
      rw [e1]
      exact (p1.trans p2).trans p3

/-- Writing `l[j]` at slot `i` and `l[i]` at slot `j` permutes `l`. -/
theorem set_set_perm {α : Type} (l : List α) (i j : Nat)
    (hi : i < l.length) (hj : j < l.length) :
    ((l.set i (l.get ⟨j, hj⟩)).set j (l.get ⟨i, hi⟩)).Perm l := by
  induction l generalizing i j with
  | nil => simp at hi
  | cons b s ih =>
    cases i with
    | zero =>
      cases j with
      | zero => simp
      | succ m =>
        have hm : m < s.length := by simpa using hj
        simpa using cons_get_set_perm s m b hm
    | succ n =>
      have hn : n < s.length := by simpa using hi
      cases j with
      | zero => simpa using cons_get_set_perm s n b hn
      | succ m =>
        have hm : m < s.length := by simpa using hj
        simpa using (ih n m hn hm).cons b

/-- `swapAt` always returns a permutation of its input. -/
theorem swapAt_perm (l : List Poem) (i j : Nat) : (swapAt l i j).Perm l := by
  unfold swapAt
  split
  · rename_i x y hx hy
    obtain ⟨hi, hgi⟩ := List.getElem?_eq_some.mp hx
    obtain ⟨hj, hgj⟩ := List.getElem?_eq_some.mp hy
    have hx2 : x = l.get ⟨i, hi⟩ := hgi.symm
    have hy2 : y = l.get ⟨j, hj⟩ := hgj.symm
    rw [hx2, hy2]
    exact set_set_perm l i j hi hj
  · exact List.Perm.refl l
  · exact List.Perm.refl l

/-- The whole swap loop permutes the list. -/
theorem fyLoop_perm (rand : Nat → Nat) (k : Nat) (arr : List Poem) :
    (fyLoop rand k arr).Perm arr := by
  induction k generalizing arr with
  | zero => exact List.Perm.refl arr
  | succ k ih =>
    exact (ih (swapAt arr (k + 1) (rand (k + 1)))).trans
      (swapAt_perm arr (k + 1) (rand (k + 1)))

/-- `fisherYatesShuffle` returns a permutation of its input, whatever the
random index choices were. -/
theorem fisherYatesShuffle_perm (rand : Nat → Nat) (array : List Poem) :
    (fisherYatesShuffle rand array).Perm array :=
  fyLoop_perm rand (array.length - 1) array

/-!  ## Engine invariants -/

theorem create_eq (poems : List Poem) (g0 : GameEngine)
    (hc : GameEngine.create poems = some g0) :
    poems ≠ [] ∧
    g0 = { allPoems := poems, remainingCards := [], readingOrder := [],
           currentRound := 0, totalRounds := 0, score := 0,
           incorrectCount := 0, gameOver := false } := by
  unfold GameEngine.create at hc
  split at hc
  · exact absurd hc (by simp)
  · rename_i hne
    refine ⟨by simpa [List.isEmpty_iff] using hne, ?_⟩
    exact (Option.some.injEq _ _ ▸ hc).symm

theorem engineInv_initGame (poems : List Poem) (g0 : GameEngine)
    (hc : GameEngine.create poems = some g0) (r1 r2 : Nat → Nat) :
    EngineInv poems (g0.initGame r1 r2) := by
  obtain ⟨hne, hg0⟩ := create_eq poems g0 hc
  subst hg0
  have hperm : (fisherYatesShuffle r1 poems).Perm poems :=
    fisherYatesShuffle_perm r1 poems
  have hlen : 0 < (fisherYatesShuffle r1 poems).length := by
    rw [hperm.length_eq]
    exact List.length_pos.mpr hne
  refine ⟨rfl, hperm, by simp [GameEngine.initGame], ?_⟩
  intro _
  simpa [GameEngine.initGame] using hlen

/-- `selectCard` leaves the reading order, the round bookkeeping, the
game-over flag and the stored catalog untouched. -/
theorem selectCard_frame (g : GameEngine) (c : Int) :
    ((g.selectCard c).2).readingOrder = g.readingOrder ∧
    ((g.selectCard c).2).currentRound = g.currentRound ∧
    ((g.selectCard c).2).totalRounds = g.totalRounds ∧
    ((g.selectCard c).2).gameOver = g.gameOver ∧
    ((g.selectCard c).2).allPoems = g.allPoems := by
  unfold GameEngine.selectCard
  split
  · exact ⟨rfl, rfl, rfl, rfl, rfl⟩
  · rcases g.getCurrentReadingCard with _ | p
    · exact ⟨rfl, rfl, rfl, rfl, rfl⟩
    · dsimp only
      split
      · exact ⟨rfl, rfl, rfl, rfl, rfl⟩
      · exact ⟨rfl, rfl, rfl, rfl, rfl⟩

/-- `nextRound` leaves the pool, the counters, the reading order and the
stored catalog untouched. -/
theorem nextRound_frame (g : GameEngine) :
    ((g.nextRound).2).readingOrder = g.readingOrder ∧
    ((g.nextRound).2).remainingCards = g.remainingCards ∧
    ((g.nextRound).2).totalRounds = g.totalRounds ∧
    ((g.nextRound).2).score = g.score ∧
    ((g.nextRound).2).incorrectCount = g.incorrectCount ∧
    ((g.nextRound).2).allPoems = g.allPoems := by
  unfold GameEngine.nextRound
  split
  · exact ⟨rfl, rfl, rfl, rfl, rfl, rfl⟩
  · dsimp only
    split
    · exact ⟨rfl, rfl, rfl, rfl, rfl, rfl⟩
    · exact ⟨rfl, rfl, rfl, rfl, rfl, rfl⟩

theorem engineInv_applyAction (poems : List Poem) (g : GameEngine)
    (h : EngineInv poems g) (a : GameAction) :
    EngineInv poems (applyAction g a) := by
  obtain ⟨h1, h2, h3, h4⟩ := h
  cases a with
  | select c =>
    obtain ⟨f1, f2, f3, f4, _⟩ := selectCard_frame g c
    exact ⟨by rw [applyAction, f3, f1, h1], by rw [applyAction, f1]; exact h2,
           by rw [applyAction, f2, f3]; exact h3,
           fun hov => by rw [applyAction, f2, f3]; exact h4 (by rwa [applyAction, f4] at hov)⟩
  | next =>
    show EngineInv poems (g.nextRound).2
    unfold GameEngine.nextRound
    split
    · exact ⟨h1, h2, h3, h4⟩
    · rename_i hov
      have hlt : g.currentRound < g.totalRounds := h4 (by simpa using hov)
      dsimp only
      split
      · refine ⟨h1, h2, ?_, ?_⟩
        · show g.currentRound + 1 ≤ g.totalRounds
          omega
        · intro hov2
          simp at hov2
      · rename_i hcond
        have hub : ¬ g.currentRound + 1 ≥ g.totalRounds := fun hge => hcond (Or.inl hge)
        refine ⟨h1, h2, ?_, fun _ => ?_⟩
        · show g.currentRound + 1 ≤ g.totalRounds
          omega
        · show g.currentRound + 1 < g.totalRounds
          omega

theorem engineInv_runActions (poems : List Poem) (g : GameEngine)
    (h : EngineInv poems g) (acts : List GameAction) :
    EngineInv poems (runActions g acts) := by
  induction acts generalizing g with
  | nil => exact h
  | cons a rest ih =>
    show EngineInv poems (runActions (applyAction g a) rest)
    exact ih (applyAction g a) (engineInv_applyAction poems g h a)

/-- While the game is not over, an invariant state has a current prompt, and
it is an entry of the reading order. -/
theorem prompt_some_of_not_over (poems : List Poem) (g : GameEngine)
    (h : EngineInv poems g) (hov : g.gameOver = false) :
    ∃ hlt : g.currentRound < g.readingOrder.length,
      g.getCurrentReadingCard = some (g.readingOrder.get ⟨g.currentRound, hlt⟩) := by
  obtain ⟨h1, _, _, h4⟩ := h
  have hlt : g.currentRound < g.readingOrder.length := h1 ▸ h4 hov
  refine ⟨hlt, ?_⟩
  unfold GameEngine.getCurrentReadingCard
  rw [if_neg (by simp [hov]; omega)]
  simp [List.getElem?_eq_getElem hlt]

theorem poolIdsNodup_initGame (poems : List Poem) (g0 : GameEngine)
    (hc : GameEngine.create poems = some g0) (r1 r2 : Nat → Nat)
    (hnd : (poems.map Poem.id).Nodup) :
    PoolIdsNodup (g0.initGame r1 r2) := by
  obtain ⟨_, hg0⟩ := create_eq poems g0 hc
  subst hg0
  have hperm : ((fisherYatesShuffle r2 poems).map Poem.id).Perm (poems.map Poem.id) :=
    (fisherYatesShuffle_perm r2 poems).map Poem.id
  exact hperm.nodup_iff.mpr hnd

theorem poolIdsNodup_applyAction (g : GameEngine) (hp : PoolIdsNodup g)
    (a : GameAction) : PoolIdsNodup (applyAction g a) := by
  cases a with
  | select c =>
    show PoolIdsNodup (g.selectCard c).2
    unfold GameEngine.selectCard
    split
    · exact hp
    · rcases g.getCurrentReadingCard with _ | p
      · exact hp
      · dsimp only
        split
        · unfold PoolIdsNodup at hp ⊢
          exact ((List.filter_sublist g.remainingCards).map Poem.id).nodup hp
        · exact hp
  | next =>
    show PoolIdsNodup (g.nextRound).2
    unfold PoolIdsNodup
    rw [(nextRound_frame g).2.1]
    exact hp

theorem poolIdsNodup_runActions (g : GameEngine) (hp : PoolIdsNodup g)
    (acts : List GameAction) : PoolIdsNodup (runActions g acts) := by
  induction acts generalizing g with
  | nil => exact hp
  | cons a rest ih =>
    exact ih (applyAction g a) (poolIdsNodup_applyAction g hp a)

/-- Equation for `selectCard` on the current prompt's id. -/
theorem selectCard_correct_eq (g : GameEngine) (p : Poem)
    (hov : g.gameOver = false) (hp : g.getCurrentReadingCard = some p) :
    g.selectCard p.id =
      ({ correct := true, correctCard := some p },
       { g with score := g.score + 1,
                remainingCards := g.remainingCards.filter fun card => card.id ≠ p.id }) := by
  unfold GameEngine.selectCard
  rw [if_neg (by simp [hov]), hp]
  dsimp only
  rw [if_pos rfl]

/-- Equation for `selectCard` on any other id. -/
theorem selectCard_wrong_eq (g : GameEngine) (p : Poem) (cardId : Int)
    (hov : g.gameOver = false) (hp : g.getCurrentReadingCard = some p)
    (hne : cardId ≠ p.id) :
    g.selectCard cardId =
      ({ correct := false, correctCard := some p },
       { g with incorrectCount := g.incorrectCount + 1 }) := by
  unfold GameEngine.selectCard
  rw [if_neg (by simp [hov]), hp]
  dsimp only
  rw [if_neg hne]

/-- `selectCard` does not move the current prompt. -/
theorem selectCard_prompt_eq (g : GameEngine) (c : Int) :
    ((g.selectCard c).2).getCurrentReadingCard = g.getCurrentReadingCard := by
  obtain ⟨f1, f2, f3, f4, _⟩ := selectCard_frame g c
  unfold GameEngine.getCurrentReadingCard
  rw [f1, f2, f3, f4]

/-!  ## Claims -/

/-- C1, counterexample: the claim "`getGameState().currentRound` is at most
`totalRounds` in every reachable state" is false: in the one-poem game, after
the single `nextRound` call, `getGameState` reports `currentRound = 2` but
`totalRounds = 1`, because the exposed round number is the internal 0-based
index plus one. -/
theorem c1_currentRound_counterexample :
    (GameEngine.create [poemA]).isSome = true ∧
    (engineOneDone.getGameState).totalRounds < (engineOneDone.getGameState).currentRound := by
  decide

/-- C1, amended: in every state reachable from `initGame` by `selectCard` /
`nextRound` calls, `getGameState().currentRound` is at most
`totalRounds + 1`, and at most `totalRounds` whenever the game is not yet
over. -/
theorem c1_currentRound_le_totalRounds (poems : List Poem) (g0 : GameEngine)
    (hc : GameEngine.create poems = some g0) (r1 r2 : Nat → Nat)
    (acts : List GameAction) (g : GameEngine)
    (hg : runActions (g0.initGame r1 r2) acts = g) :
    ((g.getGameState).isGameOver = false →
      (g.getGameState).currentRound ≤ (g.getGameState).totalRounds) ∧
    (g.getGameState).currentRound ≤ (g.getGameState).totalRounds + 1 := by
  have hinv : EngineInv poems g :=
    hg ▸ engineInv_runActions poems _ (engineInv_initGame poems g0 hc r1 r2) acts
  obtain ⟨_, _, h3, h4⟩ := hinv
  constructor
  · intro hov
    have hlt : g.currentRound < g.totalRounds := h4 hov
    show g.currentRound + 1 ≤ g.totalRounds
    omega
  · show g.currentRound + 1 ≤ g.totalRounds + 1
    omega

/-- C1, witness for the amended theorem: the freshly initialised one-poem
game is not over and reports round 1 of 1. -/
theorem c1_currentRound_le_totalRounds_witness :
    GameEngine.create [poemA] = some engineOneRaw ∧
    (engineOne.getGameState).isGameOver = false ∧
    (engineOne.getGameState).currentRound ≤ (engineOne.getGameState).totalRounds :=
  ⟨rfl, by decide,
   (c1_currentRound_le_totalRounds [poemA] engineOneRaw rfl constRand constRand
      [] engineOne rfl).1 (by decide)⟩

/-- C3: on a state that is not over, `nextRound` increments the round index,
marks the game over (returning `false`) exactly when the new index reaches
`totalRounds` or the pool is empty, and returns `true` otherwise; on a state
that is already over it returns `false` and changes nothing. -/
theorem c3_nextRound_spec (g : GameEngine) :
    (g.gameOver = false →
      ((g.nextRound).2).currentRound = g.currentRound + 1 ∧
      (((g.nextRound).2).gameOver = true ↔
        (g.currentRound + 1 ≥ g.totalRounds ∨ g.remainingCards = [])) ∧
      ((g.nextRound).1 = true ↔ ((g.nextRound).2).gameOver = false) ∧
      ((g.nextRound).1 = false ↔ ((g.nextRound).2).gameOver = true)) ∧
    (g.gameOver = true → g.nextRound = (false, g)) := by
  constructor
  · intro hov
    unfold GameEngine.nextRound
    rw [if_neg (by simp [hov])]
    dsimp only
    split
    · rename_i hcond
      refine ⟨rfl, ?_, by simp, by simp⟩
      simpa [List.length_eq_zero] using hcond
    · rename_i hcond
      refine ⟨rfl, ?_, by simp [hov], by simp [hov]⟩
      constructor
      · intro hfalse
        exact absurd hfalse.symm (by simpa using hov)
      · intro hor
        exact absurd (by simpa [List.length_eq_zero] using hor) hcond
  · intro hov
    unfold GameEngine.nextRound
    rw [if_pos hov]

/-- C3, witness: both branches at concrete states — the fresh two-poem game
advances to round 2, and the finished one-poem game is unchanged. -/
theorem c3_nextRound_spec_witness :
    (engineTwo.gameOver = false ∧
      ((engineTwo.nextRound).2).currentRound = engineTwo.currentRound + 1) ∧
    (engineOneDone.gameOver = true ∧ engineOneDone.nextRound = (false, engineOneDone)) :=
  ⟨⟨by decide, ((c3_nextRound_spec engineTwo).1 (by decide)).1⟩,
   ⟨by decide, (c3_nextRound_spec engineOneDone).2 (by decide)⟩⟩

/-- C6: once the game is over, no sequence of `selectCard` / `nextRound`
calls changes any field of the state, while `initGame` does re-initialise it
(clearing the game-over flag). -/
theorem c6_gameOver_frame (g : GameEngine) (h : g.gameOver = true)
    (acts : List GameAction) (r1 r2 : Nat → Nat) :
    runActions g acts = g ∧ ((g.initGame r1 r2).gameOver = false) := by
  constructor
  · induction acts with
    | nil => rfl
    | cons a rest ih =>
      have hstep : applyAction g a = g := by
        cases a with
        | select c => simp [applyAction, GameEngine.selectCard, h]
        | next => simp [applyAction, GameEngine.nextRound, h]
      show runActions (applyAction g a) rest = g
      rw [hstep]
      exact ih
  · rfl

/-- C6, witness: the finished one-poem game absorbs further calls. -/
theorem c6_gameOver_frame_witness :
    engineOneDone.gameOver = true ∧
    runActions engineOneDone [GameAction.select 1, GameAction.next] = engineOneDone :=
  ⟨by decide,
   (c6_gameOver_frame engineOneDone (by decide)
      [GameAction.select 1, GameAction.next] constRand constRand).1⟩

/-- C8: `fisherYatesShuffle` returns a permutation of its input for every
sequence of index choices, and consequently after `initGame` both the
reading order and the remaining pool are permutations of the poem
collection. -/
theorem c8_shuffle_perm (rand : Nat → Nat) (array : List Poem)
    (poems : List Poem) (g0 : GameEngine)
    (hc : GameEngine.create poems = some g0) (r1 r2 : Nat → Nat) :
    (fisherYatesShuffle rand array).Perm array ∧
    ((g0.initGame r1 r2).readingOrder).Perm poems ∧
    ((g0.initGame r1 r2).remainingCards).Perm poems := by
  obtain ⟨_, hg0⟩ := create_eq poems g0 hc
  subst hg0
  exact ⟨fisherYatesShuffle_perm rand array,
         fisherYatesShuffle_perm r1 poems,
         fisherYatesShuffle_perm r2 poems⟩

/-- On a list with pairwise-distinct ids, filtering out id `i` either does
nothing (no such card) or removes exactly the one card with that id, keeping
every other card in order. -/
theorem filter_ne_of_nodup (l : List Poem) (i : Int)
    (h : (l.map Poem.id).Nodup) :
    (i ∉ l.map Poem.id ∧ l.filter (fun c => c.id ≠ i) = l) ∨
    (∃ l₁ c l₂, l = l₁ ++ c :: l₂ ∧ c.id = i ∧
      i ∉ (l₁ ++ l₂).map Poem.id ∧
      l.filter (fun c => c.id ≠ i) = l₁ ++ l₂) := by
  induction l with
  | nil => left; simp
  | cons a rest ih =>
    rw [List.map_cons, List.nodup_cons] at h
    obtain ⟨hna, hnd⟩ := h
    by_cases ha : a.id = i
    · right
      have hni : i ∉ rest.map Poem.id := ha ▸ hna
      have hall : rest.filter (fun c => decide (c.id ≠ i)) = rest := by
        apply List.filter_eq_self.mpr
        intro x hx
        have : x.id ≠ i := fun heq => hni (heq ▸ List.mem_map_of_mem Poem.id hx)
        simpa using this
      refine ⟨[], a, rest, by simp, ha, by simpa using hni, ?_⟩
      rw [List.filter_cons]
      simp only [ha, decide_not]
      simpa using hall
    · rcases ih hnd with ⟨hni, heq⟩ | ⟨l₁, c, l₂, hsplit, hcid, hnmem, heq⟩
      · left
        constructor
        · simp only [List.map_cons, List.mem_cons, not_or]
          exact ⟨fun hia => ha hia.symm, hni⟩
        · rw [List.filter_cons]
          simp only [ha, decide_not]
          simpa using heq
      · right
        refine ⟨a :: l₁, c, l₂, by rw [hsplit]; rfl, hcid, ?_, ?_⟩
        · simp only [List.cons_append, List.map_cons, List.mem_cons, not_or]
          exact ⟨fun hia => ha hia.symm, hnmem⟩
        · rw [List.filter_cons]
          simp only [ha, decide_not]
          simpa using heq

/-- C2: in every state reachable from `initGame` on poems with
pairwise-distinct ids, while the game is not over: selecting the current
prompt's id returns `correct: true` with the prompt as `correctCard`,
increments the score by exactly 1, leaves the incorrect count alone, and
removes exactly the card with that id from the pool (keeping all other cards
in their order; nothing is removed if that card is already gone); selecting
any other id returns `correct: false`, leaves the pool and the score alone
and increments the incorrect count by exactly 1. -/
theorem c2_selectCard_spec (poems : List Poem) (g0 : GameEngine)
    (hc : GameEngine.create poems = some g0) (r1 r2 : Nat → Nat)
    (acts : List GameAction) (g : GameEngine)
    (hg : runActions (g0.initGame r1 r2) acts = g)
    (hnd : (poems.map Poem.id).Nodup)
    (hov : g.gameOver = false) :
    ∃ p, g.getCurrentReadingCard = some p ∧
      ((g.selectCard p.id).1 = { correct := true, correctCard := some p } ∧
       ((g.selectCard p.id).2).score = g.score + 1 ∧
       ((g.selectCard p.id).2).incorrectCount = g.incorrectCount ∧
       ((p.id ∉ g.remainingCards.map Poem.id ∧
           ((g.selectCard p.id).2).remainingCards = g.remainingCards) ∨
        (∃ l₁ c l₂, g.remainingCards = l₁ ++ c :: l₂ ∧ c.id = p.id ∧
           p.id ∉ (l₁ ++ l₂).map Poem.id ∧
           ((g.selectCard p.id).2).remainingCards = l₁ ++ l₂))) ∧
      (∀ cardId : Int, cardId ≠ p.id →
        (g.selectCard cardId).1.correct = false ∧
        ((g.selectCard cardId).2).remainingCards = g.remainingCards ∧
        ((g.selectCard cardId).2).incorrectCount = g.incorrectCount + 1 ∧
        ((g.selectCard cardId).2).score = g.score) := by
  have hinv : EngineInv poems g :=
    hg ▸ engineInv_runActions poems _ (engineInv_initGame poems g0 hc r1 r2) acts
  have hpool : PoolIdsNodup g :=
    hg ▸ poolIdsNodup_runActions _ (poolIdsNodup_initGame poems g0 hc r1 r2 hnd) acts
  obtain ⟨hlt, hp⟩ := prompt_some_of_not_over poems g hinv hov
  refine ⟨_, hp, ?_, ?_⟩
  · rw [selectCard_correct_eq g _ hov hp]
    refine ⟨rfl, rfl, rfl, ?_⟩
    exact filter_ne_of_nodup g.remainingCards _ hpool
  · intro cardId hne
    rw [selectCard_wrong_eq g _ cardId hov hp hne]
    exact ⟨rfl, rfl, rfl, rfl⟩

/-- C2, witness: in the fresh two-poem game (prompt is `poemB`, id 2),
selecting id 2 is judged correct and selecting id 1 is judged incorrect. -/
theorem c2_selectCard_spec_witness :
    (GameEngine.create [poemA, poemB] = some engineTwoRaw ∧
      ([poemA, poemB].map Poem.id).Nodup ∧ engineTwo.gameOver = false) ∧
    (engineTwo.selectCard 2).1.correct = true ∧
    (engineTwo.selectCard 1).1.correct = false := by
  refine ⟨⟨rfl, by decide, by decide⟩, ?_⟩
  obtain ⟨p, hp, ⟨hres, _, _, _⟩, hwrong⟩ :=
    c2_selectCard_spec [poemA, poemB] engineTwoRaw rfl constRand constRand
      [] engineTwo rfl (by decide) (by decide)
  have hpB : engineTwo.getCurrentReadingCard = some poemB := by decide
  have hpeq : p = poemB := by
    have := hp.symm.trans hpB
    exact Option.some.injEq _ _ ▸ this
  subst hpeq
  constructor
  · have : (engineTwo.selectCard poemB.id).1.correct = true := by
      rw [hres]
    simpa using this
  · have h1 : (1 : Int) ≠ poemB.id := by decide
    simpa using (hwrong 1 h1).1

/-- C10: while the game is not over, if `selectCard` is called twice in a row
with the current prompt's id (no `nextRound` in between), the second call is
again judged correct with the same prompt, increments the score again (total
`+2`), and leaves the remaining pool exactly as the first call left it. -/
theorem c10_double_select (g : GameEngine) (p : Poem)
    (hov : g.gameOver = false) (hp : g.getCurrentReadingCard = some p)
    (g1 : GameEngine) (hg1 : (g.selectCard p.id).2 = g1) :
    (g1.selectCard p.id).1 = { correct := true, correctCard := some p } ∧
    ((g1.selectCard p.id).2).score = g1.score + 1 ∧
    ((g1.selectCard p.id).2).score = g.score + 2 ∧
    ((g1.selectCard p.id).2).remainingCards = g1.remainingCards := by
  have hov1 : g1.gameOver = false := by
    rw [← hg1, (selectCard_frame g p.id).2.2.2.1]
    exact hov
  have hp1 : g1.getCurrentReadingCard = some p := by
    rw [← hg1, selectCard_prompt_eq]
    exact hp
  have hrem1 : g1.remainingCards = g.remainingCards.filter fun card => card.id ≠ p.id := by
    rw [← hg1, selectCard_correct_eq g p hov hp]
  have hscore1 : g1.score = g.score + 1 := by
    rw [← hg1, selectCard_correct_eq g p hov hp]
  rw [selectCard_correct_eq g1 p hov1 hp1]
  refine ⟨rfl, rfl, by simpa using hscore1, ?_⟩
  show g1.remainingCards.filter (fun card => decide (card.id ≠ p.id)) = g1.remainingCards
  apply List.filter_eq_self.mpr
  intro x hx
  rw [hrem1] at hx
  exact (List.mem_filter.mp hx).2

/-- C10, witness: in the fresh two-poem game, selecting the prompt's id
twice yields score 2 while only one card ever left the pool. -/
theorem c10_double_select_witness :
    (engineTwo.gameOver = false ∧ engineTwo.getCurrentReadingCard = some poemB ∧
      (engineTwo.selectCard poemB.id).2 = (engineTwo.selectCard poemB.id).2) ∧
    (((engineTwo.selectCard poemB.id).2).selectCard poemB.id).2.score = engineTwo.score + 2 :=
  ⟨⟨by decide, by decide, rfl⟩,
   (c10_double_select engineTwo poemB (by decide) (by decide)
      (engineTwo.selectCard poemB.id).2 rfl).2.2.1⟩

/-- Each action adds to `score + incorrectCount` exactly its `countJudged`
contribution, along every trace from an invariant state. -/
theorem countJudged_run (poems : List Poem) (g : GameEngine)
    (hinv : EngineInv poems g) (acts : List GameAction) :
    (runActions g acts).score + (runActions g acts).incorrectCount =
      g.score + g.incorrectCount + countJudged g acts := by
  induction acts generalizing g with
  | nil => simp [runActions, countJudged]
  | cons a rest ih =>
    have hstep : EngineInv poems (applyAction g a) := engineInv_applyAction poems g hinv a
    have hcj : countJudged g (a :: rest) =
        judgedContrib g a + countJudged (applyAction g a) rest := rfl
    have hrun : runActions g (a :: rest) = runActions (applyAction g a) rest := rfl
    have key : (applyAction g a).score + (applyAction g a).incorrectCount =
        g.score + g.incorrectCount + judgedContrib g a := by
      cases a with
      | next =>
        obtain ⟨_, _, _, f4, f5, _⟩ := nextRound_frame g
        show (g.nextRound).2.score + (g.nextRound).2.incorrectCount =
          g.score + g.incorrectCount + judgedContrib g GameAction.next
        rw [f4, f5]
        simp [judgedContrib]
      | select c =>
        show ((g.selectCard c).2).score + ((g.selectCard c).2).incorrectCount =
          g.score + g.incorrectCount + judgedContrib g (GameAction.select c)
        cases hov : g.gameOver with
        | true =>
          unfold GameEngine.selectCard
          rw [if_pos hov]
          simp [judgedContrib, hov]
        | false =>
          obtain ⟨hlt, hp⟩ := prompt_some_of_not_over poems g hinv hov
          have hjc : judgedContrib g (GameAction.select c) = 1 := by
            simp [judgedContrib, hov]
          rw [hjc]
          by_cases hcid : c = (g.readingOrder.get ⟨g.currentRound, hlt⟩).id
          · rw [hcid, selectCard_correct_eq g _ hov hp]
            show g.score + 1 + g.incorrectCount = g.score + g.incorrectCount + 1
            omega
          · rw [selectCard_wrong_eq g _ c hov hp hcid]
            show g.score + (g.incorrectCount + 1) = g.score + g.incorrectCount + 1
            omega
    rw [hrun, ih _ hstep, hcj, key]
    omega

/-- C4: in every game initialised by `initGame`, after any sequence of
`selectCard` / `nextRound` calls, `score + incorrectCount` equals the number
of `selectCard` calls made while the game was not over. -/
theorem c4_score_plus_incorrect (poems : List Poem) (g0 : GameEngine)
    (hc : GameEngine.create poems = some g0) (r1 r2 : Nat → Nat)
    (acts : List GameAction) :
    (runActions (g0.initGame r1 r2) acts).score +
      (runActions (g0.initGame r1 r2) acts).incorrectCount =
      countJudged (g0.initGame r1 r2) acts := by
  have h := countJudged_run poems (g0.initGame r1 r2)
    (engineInv_initGame poems g0 hc r1 r2) acts
  have hs : (g0.initGame r1 r2).score = 0 := rfl
  have hi : (g0.initGame r1 r2).incorrectCount = 0 := rfl
  rw [h, hs, hi]
  omega

/-- C4, witness: a concrete trace on the two-poem game — one correct pick,
one wrong pick, one advance — gives `score + incorrectCount = 2`, the number
of judged `selectCard` calls. -/
theorem c4_score_plus_incorrect_witness :
    GameEngine.create [poemA, poemB] = some engineTwoRaw ∧
    (runActions engineTwo [GameAction.select 2, GameAction.select 5, GameAction.next]).score +
      (runActions engineTwo [GameAction.select 2, GameAction.select 5, GameAction.next]).incorrectCount =
      countJudged engineTwo [GameAction.select 2, GameAction.select 5, GameAction.next] :=
  ⟨rfl, c4_score_plus_incorrect [poemA, poemB] engineTwoRaw rfl constRand constRand
    [GameAction.select 2, GameAction.select 5, GameAction.next]⟩

/-- C5: in every state reachable from `initGame`, `getCurrentReadingCard`
returns `null` exactly when the game is over, and any poem it returns has an
id present in the original collection. -/
theorem c5_currentPrompt (poems : List Poem) (g0 : GameEngine)
    (hc : GameEngine.create poems = some g0) (r1 r2 : Nat → Nat)
    (acts : List GameAction) (g : GameEngine)
    (hg : runActions (g0.initGame r1 r2) acts = g) :
    (g.getCurrentReadingCard = none ↔ g.isGameOver = true) ∧
    (∀ p, g.getCurrentReadingCard = some p → p.id ∈ poems.map Poem.id) := by
  have hinv : EngineInv poems g :=
    hg ▸ engineInv_runActions poems _ (engineInv_initGame poems g0 hc r1 r2) acts
  constructor
  · constructor
    · intro hnone
      cases hov : g.gameOver with
      | true => simpa [GameEngine.isGameOver] using hov
      | false =>
        obtain ⟨hlt, hp⟩ := prompt_some_of_not_over poems g hinv hov
        rw [hp] at hnone
        exact Option.noConfusion hnone
    · intro hov
      have hov2 : (g.gameOver : Prop) := by simpa [GameEngine.isGameOver] using hov
      unfold GameEngine.getCurrentReadingCard
      rw [if_pos (Or.inl hov2)]
  · intro p hp
    have hmem : p ∈ g.readingOrder := by
      unfold GameEngine.getCurrentReadingCard at hp
      by_cases hcond : (g.gameOver : Prop) ∨ g.currentRound ≥ g.totalRounds
      · rw [if_pos hcond] at hp
        exact Option.noConfusion hp
      · rw [if_neg hcond] at hp
        exact List.getElem?_mem hp
    exact List.mem_map_of_mem Poem.id (hinv.2.1.mem_iff.mp hmem)

/-- C5, witness: in the fresh two-poem game the prompt is not `null` (the
game is not over) and its id is in the catalog. -/
theorem c5_currentPrompt_witness :
    GameEngine.create [poemA, poemB] = some engineTwoRaw ∧
    (engineTwo.getCurrentReadingCard = none ↔ engineTwo.isGameOver = true) ∧
    poemB.id ∈ [poemA, poemB].map Poem.id :=
  ⟨rfl,
   (c5_currentPrompt [poemA, poemB] engineTwoRaw rfl constRand constRand
      [] engineTwo rfl).1,
   (c5_currentPrompt [poemA, poemB] engineTwoRaw rfl constRand constRand
      [] engineTwo rfl).2 poemB (by decide)⟩

/-- `round` on `ℚ` is monotone. -/
theorem roundRat_mono (a b : ℚ) (h : a ≤ b) : round a ≤ round b := by
  rw [round_eq, round_eq]
  exact Int.floor_le_floor (by linarith)

theorem scoreInv_create (t : Int) (s0 : ScoreManager)
    (hc : ScoreManager.create t = some s0) : ScoreInv s0 := by
  unfold ScoreManager.create at hc
  split at hc
  · exact absurd hc (by simp)
  · rename_i ht
    have hs0 : s0 = { totalCards := t, correct := 0, incorrect := 0 } :=
      (Option.some.injEq _ _ ▸ hc).symm
    subst hs0
    exact ⟨by show (0 : Int) ≤ t; omega, le_refl 0, le_refl 0⟩

theorem scoreInv_apply (s : ScoreManager) (h : ScoreInv s) (a : ScoreAction) :
    ScoreInv (applyScoreAction s a) := by
  obtain ⟨h1, h2, h3⟩ := h
  cases a with
  | addCorrect => exact ⟨h1, by show 0 ≤ s.correct + 1; omega, h3⟩
  | addIncorrect => exact ⟨h1, h2, by show 0 ≤ s.incorrect + 1; omega⟩
  | reset t =>
    cases t with
    | none => exact ⟨h1, le_refl 0, le_refl 0⟩
    | some v =>
      show ScoreInv (if v < 0 then s else { totalCards := v, correct := 0, incorrect := 0 })
      split
      · exact ⟨h1, h2, h3⟩
      · rename_i hv
        exact ⟨by show (0 : Int) ≤ v; omega, le_refl 0, le_refl 0⟩

theorem scoreInv_run (s : ScoreManager) (h : ScoreInv s) (acts : List ScoreAction) :
    ScoreInv (runScoreActions s acts) := by
  induction acts generalizing s with
  | nil => exact h
  | cons a rest ih => exact ih (applyScoreAction s a) (scoreInv_apply s h a)

/-- The accuracy is a percentage in `[0, 100]` as soon as the counters are
non-negative. -/
theorem getAccuracy_bounds (s : ScoreManager) (hcor : 0 ≤ s.correct)
    (hinc : 0 ≤ s.incorrect) :
    0 ≤ s.getAccuracy ∧ s.getAccuracy ≤ 100 := by
  unfold ScoreManager.getAccuracy
  by_cases h0 : s.correct + s.incorrect = 0
  · rw [if_pos h0]
    norm_num
  · rw [if_neg h0]
    have hcQ : (0 : ℚ) ≤ (s.correct : ℚ) := by exact_mod_cast hcor
    have hiQ : (0 : ℚ) ≤ (s.incorrect : ℚ) := by exact_mod_cast hinc
    have hta : (0 : ℚ) < ((s.correct + s.incorrect : Int) : ℚ) := by
      have : (0 : Int) < s.correct + s.incorrect := by omega
      exact_mod_cast this
    have hq0 : 0 ≤ ((s.correct : ℚ) / ((s.correct + s.incorrect : Int) : ℚ)) :=
      div_nonneg hcQ (le_of_lt hta)
    have hq1 : ((s.correct : ℚ) / ((s.correct + s.incorrect : Int) : ℚ)) ≤ 1 := by
      rw [div_le_one hta]
      push_cast
      linarith
    have hr0 : (0 : ℤ) ≤ round (((s.correct : ℚ) / ((s.correct + s.incorrect : Int) : ℚ)) * 10000) := by
      have := roundRat_mono 0 (((s.correct : ℚ) / ((s.correct + s.incorrect : Int) : ℚ)) * 10000)
        (by nlinarith)
      simpa using this
    have h10 : ((10000 : ℤ) : ℚ) = (10000 : ℚ) := by norm_cast
    have hr1 : round (((s.correct : ℚ) / ((s.correct + s.incorrect : Int) : ℚ)) * 10000) ≤ 10000 := by
      have hmono := roundRat_mono (((s.correct : ℚ) / ((s.correct + s.incorrect : Int) : ℚ)) * 10000)
        ((10000 : ℤ) : ℚ) (by rw [h10]; nlinarith)
      rw [round_intCast] at hmono
      exact hmono
    constructor
    · exact div_nonneg (by exact_mod_cast hr0) (by norm_num)
    · rw [div_le_iff₀ (by norm_num : (0 : ℚ) < 100)]
      have hle : ((round (((s.correct : ℚ) / ((s.correct + s.incorrect : Int) : ℚ)) * 10000) : ℤ) : ℚ) ≤ 10000 := by
        exact_mod_cast hr1
      linarith

/-- C7: in every reachable `ScoreManager` state, `getScore` reports
`remaining = max(0, totalCards - correct)`; the accuracy is `0` when no
attempt was judged and otherwise `correct/(correct+incorrect)·100` rounded
to 2 decimal places; and the accuracy always lies in `[0, 100]`. -/
theorem c7_getScore_spec (t : Int) (s0 : ScoreManager)
    (hc : ScoreManager.create t = some s0) (acts : List ScoreAction)
    (s : ScoreManager) (hs : runScoreActions s0 acts = s) :
    (s.getScore).remaining = max 0 (s.totalCards - s.correct) ∧
    (s.correct + s.incorrect = 0 → (s.getScore).accuracy = 0) ∧
    (0 < s.correct + s.incorrect →
      (s.getScore).accuracy =
        specRoundTo2 (((s.correct : ℚ) / ((s.correct : ℚ) + (s.incorrect : ℚ))) * 100)) ∧
    0 ≤ (s.getScore).accuracy ∧ (s.getScore).accuracy ≤ 100 := by
  have hinv : ScoreInv s := hs ▸ scoreInv_run s0 (scoreInv_create t s0 hc) acts
  obtain ⟨ht, hcor, hinc⟩ := hinv
  have hacc : (s.getScore).accuracy = s.getAccuracy := rfl
  refine ⟨rfl, ?_, ?_, ?_⟩
  · intro h0
    rw [hacc]
    unfold ScoreManager.getAccuracy
    rw [if_pos h0]
  · intro hpos
    rw [hacc]
    unfold ScoreManager.getAccuracy specRoundTo2
    rw [if_neg (by omega)]
    have harg : ((s.correct : ℚ) / ((s.correct + s.incorrect : Int) : ℚ)) * 10000 =
        (((s.correct : ℚ) / ((s.correct : ℚ) + (s.incorrect : ℚ))) * 100) * 100 := by
      push_cast
      ring
    rw [harg]
  · rw [hacc]
    exact getAccuracy_bounds s hcor hinc

/-- C7, witness: a ten-card manager after one correct and one incorrect
judgment has accuracy between 0 and 100 and the clamped remaining count. -/
theorem c7_getScore_spec_witness :
    ScoreManager.create 10 = some scoreTen ∧
    ((runScoreActions scoreTen [ScoreAction.addCorrect, ScoreAction.addIncorrect]).getScore).remaining =
      max 0 ((runScoreActions scoreTen [ScoreAction.addCorrect, ScoreAction.addIncorrect]).totalCards -
        (runScoreActions scoreTen [ScoreAction.addCorrect, ScoreAction.addIncorrect]).correct) ∧
    0 ≤ ((runScoreActions scoreTen [ScoreAction.addCorrect, ScoreAction.addIncorrect]).getScore).accuracy :=
  ⟨rfl,
   (c7_getScore_spec 10 scoreTen rfl [ScoreAction.addCorrect, ScoreAction.addIncorrect]
      (runScoreActions scoreTen [ScoreAction.addCorrect, ScoreAction.addIncorrect]) rfl).1,
   (c7_getScore_spec 10 scoreTen rfl [ScoreAction.addCorrect, ScoreAction.addIncorrect]
      (runScoreActions scoreTen [ScoreAction.addCorrect, ScoreAction.addIncorrect]) rfl).2.2.2.1⟩

/-- C8, witness: the two-poem game's orderings are permutations of the
input collection. -/
theorem c8_shuffle_perm_witness :
    GameEngine.create [poemA, poemB] = some engineTwoRaw ∧
    (engineTwo.readingOrder).Perm [poemA, poemB] ∧
    (engineTwo.remainingCards).Perm [poemA, poemB] :=
  ⟨rfl,
   (c8_shuffle_perm constRand [poemA] [poemA, poemB] engineTwoRaw rfl
      constRand constRand).2.1,
   (c8_shuffle_perm constRand [poemA] [poemA, poemB] engineTwoRaw rfl
      constRand constRand).2.2⟩

/-!  ## Validator lemmas -/

theorem validatePoem_valid_iff (p : JsVal) :
    (validatePoem p).valid = true ↔ (validatePoem p).errors = [] := by
  cases p <;> simp [validatePoem]

theorem scan_errs (poems : List JsVal) (idx : Nat) (errs : List String)
    (seen dups : List Int) :
    (scanPoems poems idx errs seen dups).1 = errs ++ elemErrors idx poems := by
  induction poems generalizing idx errs seen dups with
  | nil => simp [scanPoems, elemErrors]
  | cons p rest ih =>
    rw [scanPoems]
    cases hid : elemIdOf p with
    | none =>
      dsimp only
      rw [ih]
      by_cases hv : (validatePoem p).valid
      · simp [elemErrors, hv]
      · simp [elemErrors, hv]
    | some n =>
      dsimp only
      by_cases hc : seen.contains n
      · rw [if_pos hc, ih]
        by_cases hv : (validatePoem p).valid
        · simp [elemErrors, hv]
        · simp [elemErrors, hv]
      · rw [if_neg hc, ih]
        by_cases hv : (validatePoem p).valid
        · simp [elemErrors, hv]
        · simp [elemErrors, hv]

theorem elemErrors_nil_iff (idx : Nat) (poems : List JsVal) :
    elemErrors idx poems = [] ↔ ∀ p ∈ poems, (validatePoem p).valid = true := by
  induction poems generalizing idx with
  | nil => simp [elemErrors]
  | cons p rest ih =>
    rw [elemErrors]
    by_cases hv : (validatePoem p).valid
    · rw [if_pos hv, List.nil_append, ih (idx + 1)]
      constructor
      · intro h q hq
        rw [List.mem_cons] at hq
        rcases hq with rfl | hq
        · exact hv
        · exact h q hq
      · intro h q hq
        exact h q (List.mem_cons_of_mem p hq)
    · have hne : (validatePoem p).errors ≠ [] := by
        intro hnil
        exact hv ((validatePoem_valid_iff p).mpr hnil)
      constructor
      · intro h
        exfalso
        rw [if_neg hv] at h
        rcases List.append_eq_nil.mp h with ⟨hmap, _⟩
        exact hne (List.map_eq_nil_iff.mp hmap)
      · intro h
        exact absurd (h p (List.mem_cons_self p rest)) hv

theorem elemErrors_mem (poems : List JsVal) (idx i : Nat) (p : JsVal)
    (hget : poems[i]? = some p) (e : String) (he : e ∈ (validatePoem p).errors)
    (hv : (validatePoem p).valid = false) :
    indexedError (idx + i) e ∈ elemErrors idx poems := by
  induction poems generalizing idx i with
  | nil => simp at hget
  | cons q rest ih =>
    cases i with
    | zero =>
      have hq : q = p := by simpa using hget
      subst hq
      rw [elemErrors]
      apply List.mem_append_left
      rw [if_neg (by simp [hv])]
      simpa using List.mem_map_of_mem (indexedError idx) he
    | succ j =>
      have hget2 : rest[j]? = some p := by simpa using hget
      have := ih (idx + 1) j hget2
      rw [elemErrors]
      apply List.mem_append_right
      have harith : idx + 1 + j = idx + (j + 1) := by omega
      rwa [harith] at this

theorem scan_dups_append (poems : List JsVal) (idx : Nat) (errs : List String)
    (seen dups : List Int) :
    (scanPoems poems idx errs seen dups).2.2 =
      dups ++ (scanPoems poems idx errs seen []).2.2 := by
  induction poems generalizing idx errs seen dups with
  | nil => simp [scanPoems]
  | cons p rest ih =>
    rw [scanPoems, scanPoems]
    cases hid : elemIdOf p with
    | none =>
      dsimp only
      exact ih _ _ _ _
    | some n =>
      dsimp only
      by_cases hc : seen.contains n
      · rw [if_pos hc, if_pos hc]
        rw [ih _ _ _ (dups ++ [n]), ih _ _ _ ([] ++ [n])]
        simp
      · rw [if_neg hc, if_neg hc]
        exact ih _ _ _ _

theorem scan_dups_nil_iff (poems : List JsVal) (idx : Nat) (errs : List String)
    (seen dups : List Int) (hseen : seen.Nodup) :
    (scanPoems poems idx errs seen dups).2.2 = [] ↔
      dups = [] ∧ (seen ++ poems.filterMap elemIdOf).Nodup := by
  induction poems generalizing idx errs seen dups with
  | nil => simp [scanPoems, hseen]
  | cons p rest ih =>
    rw [scanPoems]
    cases hid : elemIdOf p with
    | none =>
      dsimp only
      rw [ih _ _ _ _ hseen]
      simp [List.filterMap_cons, hid]
    | some n =>
      dsimp only
      by_cases hc : seen.contains n
      · rw [if_pos hc]
        have hmem : n ∈ seen := by simpa using hc
        constructor
        · intro h
          rw [scan_dups_append] at h
          simp at h
        · rintro ⟨_, hnod⟩
          exfalso
          rw [List.filterMap_cons, hid] at hnod
          rcases List.nodup_append.mp hnod with ⟨_, _, hdisj⟩
          exact hdisj hmem (List.mem_cons_self n _)
      · rw [if_neg hc]
        have hnmem : n ∉ seen := by simpa using hc
        have hseen2 : (seen ++ [n]).Nodup := by
          rw [List.nodup_append]
          refine ⟨hseen, List.nodup_singleton n, ?_⟩
          intro a ha han
          rw [List.mem_singleton] at han
          exact hnmem (han ▸ ha)
        rw [ih _ _ _ _ hseen2]
        rw [List.filterMap_cons, hid]
        have hassoc : (seen ++ [n]) ++ rest.filterMap elemIdOf =
            seen ++ n :: rest.filterMap elemIdOf := by simp
        rw [hassoc]

theorem scan_dups_mem (poems : List JsVal) (n : Int) :
    ∀ (idx : Nat) (errs : List String) (seen dups : List Int),
    (n ∈ dups ∨
      (n ∈ seen ∧ 1 ≤ poems.countP (fun p => elemIdOf p == some n)) ∨
      2 ≤ poems.countP (fun p => elemIdOf p == some n)) →
    n ∈ (scanPoems poems idx errs seen dups).2.2 := by
  induction poems with
  | nil =>
    intro idx errs seen dups h
    rw [scanPoems]
    rcases h with h | ⟨_, h⟩ | h
    · exact h
    · rw [List.countP_nil] at h
      exact absurd h (by omega)
    · rw [List.countP_nil] at h
      exact absurd h (by omega)
  | cons p rest ih =>
    intro idx errs seen dups h
    rw [scanPoems]
    have hcp : (p :: rest).countP (fun q => elemIdOf q == some n) =
        rest.countP (fun q => elemIdOf q == some n) +
          (if (elemIdOf p == some n) = true then 1 else 0) :=
      List.countP_cons _ _ _
    cases hid : elemIdOf p with
    | none =>
      dsimp only
      apply ih
      have hpred : (elemIdOf p == some n) = false := by rw [hid]; rfl
      rw [hcp, hpred] at h
      simpa using h
    | some m =>
      dsimp only
      by_cases hmn : m = n
      · have hpred : (elemIdOf p == some n) = true := by
          rw [hid, hmn]
          exact beq_self_eq_true (some n)
        have hc2 : (p :: rest).countP (fun q => elemIdOf q == some n) =
            rest.countP (fun q => elemIdOf q == some n) + 1 := by
          rw [hcp, hpred]
          simp
        rw [hc2] at h
        have hmn2 : n ∈ [m] := by
          rw [hmn]
          exact List.mem_singleton_self n
        by_cases hc : seen.contains m
        · rw [if_pos hc]
          apply ih
          left
          rcases h with h | ⟨_, _⟩ | _
          · exact List.mem_append_left _ h
          · exact List.mem_append_right _ hmn2
          · exact List.mem_append_right _ hmn2
        · rw [if_neg hc]
          apply ih
          have hnmem : n ∉ seen := by
            intro hns
            have hms : m ∈ seen := hmn ▸ hns
            have hcm : seen.contains m = true := by simpa using hms
            exact hc hcm
          rcases h with h | ⟨hns, _⟩ | h
          · exact Or.inl h
          · exact absurd hns hnmem
          · right; left
            exact ⟨List.mem_append_right _ hmn2, by omega⟩
      · have hpred : (elemIdOf p == some n) = false := by
          rw [hid]
          simpa using hmn
        have hc2 : (p :: rest).countP (fun q => elemIdOf q == some n) =
            rest.countP (fun q => elemIdOf q == some n) := by
          rw [hcp, hpred]
          simp
        rw [hc2] at h
        by_cases hc : seen.contains m
        · rw [if_pos hc]
          apply ih
          rcases h with h | ⟨hns, hcnt⟩ | h
          · exact Or.inl (List.mem_append_left _ h)
          · exact Or.inr (Or.inl ⟨hns, hcnt⟩)
          · exact Or.inr (Or.inr h)
        · rw [if_neg hc]
          apply ih
          rcases h with h | ⟨hns, hcnt⟩ | h
          · exact Or.inl h
          · exact Or.inr (Or.inl ⟨List.mem_append_left _ hns, hcnt⟩)
          · exact Or.inr (Or.inr h)

/-- The error list of `validatePoemCollection` on an array, decomposed into
the length error, the indexed element errors and the duplicate-ids error. -/
theorem validateColl_errors (poems : List JsVal) :
    (validatePoemCollection (.varr poems)).errors =
      (if (collDuplicateIds poems).isEmpty then
        (if poems.length = 100 then [] else [countError poems.length]) ++ elemErrors 0 poems
       else
        ((if poems.length = 100 then [] else [countError poems.length]) ++ elemErrors 0 poems)
          ++ [dupError (collDuplicateIds poems)]) := by
  unfold validatePoemCollection collDuplicateIds
  dsimp only
  rw [scan_errs]

/-- `valid` is defined as emptiness of the error list. -/
theorem validateColl_valid (poems : List JsVal) :
    (validatePoemCollection (.varr poems)).valid =
      ((validatePoemCollection (.varr poems)).errors).isEmpty := rfl

/-- C9: `validatePoemCollection` succeeds with no errors exactly on arrays of
exactly 100 elements that are each valid per `validatePoem` and whose
(integer) ids are pairwise distinct; on a 100-element collection containing a
duplicated id it fails, listing that id in the duplicate-ids error message;
and every invalid element's errors are reported prefixed with the element's
index. -/
theorem c9_validateCollection_spec :
    (∀ v : JsVal,
      ((validatePoemCollection v).valid = true ∧ (validatePoemCollection v).errors = []) ↔
        ∃ poems : List JsVal, v = .varr poems ∧ poems.length = 100 ∧
          (∀ p ∈ poems, (validatePoem p).valid = true) ∧
          (poems.filterMap elemIdOf).Nodup) ∧
    (∀ (poems : List JsVal) (n : Int), poems.length = 100 →
      2 ≤ poems.countP (fun p => elemIdOf p == some n) →
      (validatePoemCollection (.varr poems)).valid = false ∧
      n ∈ collDuplicateIds poems ∧
      dupError (collDuplicateIds poems) ∈ (validatePoemCollection (.varr poems)).errors) ∧
    (∀ (poems : List JsVal) (i : Nat) (p : JsVal), poems[i]? = some p →
      (validatePoem p).valid = false →
      ∀ e ∈ (validatePoem p).errors,
        indexedError i e ∈ (validatePoemCollection (.varr poems)).errors) := by
  refine ⟨?_, ?_, ?_⟩
  · intro v
    constructor
    · rintro ⟨hval, herr⟩
      cases v with
      | varr poems =>
        refine ⟨poems, rfl, ?_, ?_, ?_⟩
        all_goals {
          rw [validateColl_errors] at herr
          by_cases hd : (collDuplicateIds poems).isEmpty
          case neg =>
            rw [if_neg hd] at herr
            exact absurd herr (by simp)
          case pos =>
            rw [if_pos hd] at herr
            rcases List.append_eq_nil.mp herr with ⟨hlen, helem⟩
            first
            | -- length: the count error would be non-empty
              (by_cases hl : poems.length = 100
               · exact hl
               · rw [if_neg hl] at hlen
                 exact absurd hlen (by simp))
            | -- element validity
              exact (elemErrors_nil_iff 0 poems).mp helem
            | -- id uniqueness from the empty duplicate list
              (have hdnil : collDuplicateIds poems = [] := List.isEmpty_iff.mp hd
               unfold collDuplicateIds at hdnil
               rw [scan_dups_nil_iff _ _ _ _ _ List.nodup_nil] at hdnil
               simpa using hdnil.2)
        }
      | vnull => exact absurd hval (by simp [validatePoemCollection])
      | vundefined => exact absurd hval (by simp [validatePoemCollection])
      | vbool b => exact absurd hval (by simp [validatePoemCollection])
      | vnum q => exact absurd hval (by simp [validatePoemCollection])
      | vstr s => exact absurd hval (by simp [validatePoemCollection])
      | vobj fields => exact absurd hval (by simp [validatePoemCollection])
    · rintro ⟨poems, rfl, hlen, hall, hnd⟩
      have hdups : collDuplicateIds poems = [] := by
        unfold collDuplicateIds
        rw [scan_dups_nil_iff _ _ _ _ _ List.nodup_nil]
        exact ⟨rfl, by simpa using hnd⟩
      have herrs : (validatePoemCollection (.varr poems)).errors = [] := by
        rw [validateColl_errors, hdups]
        rw [if_pos (by rfl), if_pos hlen, List.nil_append]
        exact (elemErrors_nil_iff 0 poems).mpr hall
      refine ⟨?_, herrs⟩
      rw [validateColl_valid, herrs]
      rfl
  · intro poems n hlen hcnt
    have hmem : n ∈ collDuplicateIds poems := by
      unfold collDuplicateIds
      exact scan_dups_mem poems n 0 _ [] [] (Or.inr (Or.inr hcnt))
    have hne : collDuplicateIds poems ≠ [] := List.ne_nil_of_mem hmem
    have hie : ¬ ((collDuplicateIds poems).isEmpty = true) :=
      fun h => hne (List.isEmpty_iff.mp h)
    refine ⟨?_, hmem, ?_⟩
    · rw [validateColl_valid, validateColl_errors, if_neg hie]
      simp
    · rw [validateColl_errors, if_neg hie]
      exact List.mem_append_right _ (List.mem_singleton_self _)
  · intro poems i p hget hv e he
    have hmm := elemErrors_mem poems 0 i p hget e he hv
    rw [Nat.zero_add] at hmm
    rw [validateColl_errors]
    by_cases hd : (collDuplicateIds poems).isEmpty
    · rw [if_pos hd]
      exact List.mem_append_right _ hmm
    · rw [if_neg hd]
      exact List.mem_append_left _ (List.mem_append_right _ hmm)

set_option maxRecDepth 10000 in
/-- C9, witness: the 100-poem collection with ids 1..100 validates cleanly,
and the variant whose last element reuses id 1 is rejected. -/
theorem c9_validateCollection_spec_witness :
    ((validatePoemCollection jsGoodColl).valid = true ∧
      (validatePoemCollection jsGoodColl).errors = []) ∧
    (validatePoemCollection jsDupColl).valid = false :=
  ⟨(c9_validateCollection_spec.1 jsGoodColl).mpr
    ⟨(List.range 100).map fun i => jsPoem (Int.ofNat i + 1), rfl,
     by decide, by decide, by decide⟩,
   (c9_validateCollection_spec.2.1
      ((List.range 100).map fun i => jsPoem (if i = 99 then 1 else Int.ofNat i + 1))
      1 (by decide) (by decide)).1⟩
